import Mathlib

/-!
Verification of the constraint engine of the `girdle` word-guessing aid.

The development shallowly embeds `src/dictionary/dictionary.rs` and
`src/dictionary/error.rs`:

* Rust `String` words become `List Char` (length is character count,
  which agrees with `str::len` on the ASCII word lists the program uses);
* `HashSet<char>` becomes `Finset Char` (the code only ever uses set
  membership, insertion, removal, clearing, and a sorted listing, so the
  hash order is unobservable);
* the `RefCell` interior mutability becomes explicit state passing: each
  `&self` method that mutates becomes a function `Dictionary → Dictionary`
  (or returns the updated state paired with its result);
* the `panic!` in `set_char_position` becomes `Except.error` carrying the
  panic message; `io::Error` becomes an opaque payload type `ε`;
* the filesystem probed by `find_dictionary`/`read_words` becomes an
  explicit `FileSystem` record mapping paths to metadata success and to
  either the file's lines or an I/O error.
-/

/-- A word: a sequence of characters (Rust `String`). -/
abbrev Word := List Char

/-- The engine state, mirroring `struct Dictionary` field for field.
The Rust field `include` is spelled `includeSet` because `include` is a
reserved word in Lean. -/
structure Dictionary where
  words : List Word
  includeSet : Finset Char
  exclude : Finset Char
  positions : List Char
  matchesCache : Option (List Word)
deriving DecidableEq

deriving instance DecidableEq for Except

/-- Rust `enum SetType`. -/
inductive SetType where
  | Excluded
  | Included
deriving DecidableEq

/-- The state built by `Dictionary::new` once the word list has been read:
empty sets, all five positions at the wildcard `'.'`, no cached matches. -/
def Dictionary.init (words : List Word) : Dictionary :=
  { words := words, includeSet := ∅, exclude := ∅,
    positions := List.replicate 5 '.', matchesCache := none }

/-- Rust `Dictionary::reset`. -/
def Dictionary.reset (d : Dictionary) : Dictionary :=
  { d with includeSet := ∅, exclude := ∅,
           positions := List.replicate 5 '.', matchesCache := none }

/-- Rust `Dictionary::exclude_char`: remove from `include`, insert into `exclude`. -/
def Dictionary.exclude_char (d : Dictionary) (ch : Char) : Dictionary :=
  { d with includeSet := d.includeSet.erase ch, exclude := insert ch d.exclude }

/-- Rust `Dictionary::include_char`: remove from `exclude`, insert into `include`. -/
def Dictionary.include_char (d : Dictionary) (ch : Char) : Dictionary :=
  { d with exclude := d.exclude.erase ch, includeSet := insert ch d.includeSet }

/-- Rust `Dictionary::remove_excluded_char`: erase and invalidate the cache. -/
def Dictionary.remove_excluded_char (d : Dictionary) (ch : Char) : Dictionary :=
  { d with exclude := d.exclude.erase ch, matchesCache := none }

/-- Rust `Dictionary::remove_included_char`: erase and invalidate the cache. -/
def Dictionary.remove_included_char (d : Dictionary) (ch : Char) : Dictionary :=
  { d with includeSet := d.includeSet.erase ch, matchesCache := none }

/-- Rust `Dictionary::clear_excluded_chars` (does not touch the cache). -/
def Dictionary.clear_excluded_chars (d : Dictionary) : Dictionary :=
  { d with exclude := ∅ }

/-- Rust `Dictionary::clear_included_chars` (does not touch the cache). -/
def Dictionary.clear_included_chars (d : Dictionary) : Dictionary :=
  { d with includeSet := ∅ }

/-- Rust `Dictionary::add_char`. -/
def Dictionary.add_char (d : Dictionary) (set_type : SetType) (ch : Char) :
    Dictionary :=
  match set_type with
  | SetType.Excluded => d.exclude_char ch
  | SetType.Included => d.include_char ch

/-- Rust `Dictionary::remove_char`. -/
def Dictionary.remove_char (d : Dictionary) (set_type : SetType) (ch : Char) :
    Dictionary :=
  match set_type with
  | SetType.Excluded => d.remove_excluded_char ch
  | SetType.Included => d.remove_included_char ch

/-- Rust `Dictionary::clear_set`. -/
def Dictionary.clear_set (d : Dictionary) (set_type : SetType) : Dictionary :=
  match set_type with
  | SetType.Excluded => d.clear_excluded_chars
  | SetType.Included => d.clear_included_chars

/-- Rust `Dictionary::excluded_chars`: the excluded letters, sorted ascending. -/
def Dictionary.excluded_chars (d : Dictionary) : List Char :=
  Finset.sort (fun a b => a ≤ b) d.exclude

/-- Rust `Dictionary::included_chars`: the included letters, sorted ascending. -/
def Dictionary.included_chars (d : Dictionary) : List Char :=
  Finset.sort (fun a b => a ≤ b) d.includeSet

/-- Rust `Dictionary::set_char_position`.  The out-of-range `panic!` is modelled
as `Except.error` carrying the panic message; on success the updated state
is returned.  Note the source erases `ch` from both sets and writes the
position slot on every in-range call, the wildcard case included. -/
def Dictionary.set_char_position (d : Dictionary) (pos : Nat) (ch : Char) :
    Except String Dictionary :=
  if pos < 1 ∨ pos > 5 then
    Except.error "`pos` must be between 1 and 5."
  else
    Except.ok { d with
      matchesCache := if ch = '.' then none else d.matchesCache,
      includeSet := d.includeSet.erase ch,
      exclude := d.exclude.erase ch,
      positions := d.positions.set (pos - 1) ch }

/-- Rust `Dictionary::unset_char_position`. -/
def Dictionary.unset_char_position (d : Dictionary) (pos : Nat) :
    Except String Dictionary :=
  d.set_char_position pos '.'

/-- Rust `Dictionary::match_excluded`: some excluded letter occurs in `s`. -/
def Dictionary.match_excluded (d : Dictionary) (s : Word) : Bool :=
  decide (∃ ch ∈ d.exclude, ch ∈ s)

/-- Rust `Dictionary::match_included`: every included letter occurs in `s`. -/
def Dictionary.match_included (d : Dictionary) (s : Word) : Bool :=
  decide (∀ ch ∈ d.includeSet, ch ∈ s)

/-- Rust `Dictionary::match_positions`: each character of `s` agrees with the
corresponding position slot unless that slot holds the wildcard `'.'`. -/
def Dictionary.match_positions (d : Dictionary) (s : Word) : Bool :=
  (s.zip d.positions).all (fun p => p.2 == p.1 || p.2 == '.')

/-- Rust `Dictionary::filter_matches`, with the source's exact decision shape:
reject on an excluded letter, then accept when the inclusion and position
checks both pass. -/
def Dictionary.filter_matches (d : Dictionary) (ms : List Word) : List Word :=
  ms.filter (fun s =>
    if d.match_excluded s then false
    else if d.match_included s && d.match_positions s then true
    else false)

/-- Rust `Dictionary::matches`: filter the cached result when one is present,
otherwise the full word list; store and return the outcome.  Returns the
updated state paired with the returned sequence. -/
def Dictionary.matchesCall (d : Dictionary) : Dictionary × List Word :=
  let result :=
    match d.matchesCache with
    | some ms => d.filter_matches ms
    | none => d.filter_matches d.words
  ({ d with matchesCache := some result }, result)

/-- Rust `read_words`' per-line processing: keep the lines of length 5, lowercased,
in source order.  (Opening the file and line read failures are modelled in
`FileSystem.readLines` below; this is the loop body over the read lines.) -/
def read_words (lines : List Word) : List Word :=
  (lines.filter (fun line => line.length == 5)).map
    (fun line => line.map Char.toLower)

/-- Rust `dictionary::Error` (from `error.rs`): a message plus an optional
underlying I/O error, whose payload type `ε` is opaque here. -/
structure DictError (ε : Type) where
  msg : String
  source : Option ε
deriving DecidableEq

/-- Rust `Error::new`. -/
def DictError.new {ε : Type} (msg : String) : DictError ε :=
  { msg := msg, source := none }

/-- Rust `impl From<io::Error> for Error`: wraps the underlying I/O error. -/
def DictError.fromIo {ε : Type} (e : ε) : DictError ε :=
  { msg := "IO Error", source := some e }

/-- The filesystem as `find_dictionary` and `read_words` observe it:
whether `fs::metadata` succeeds on a path, and what reading the file at a
path yields (its lines, or an I/O error of opaque type `ε`). -/
structure FileSystem (ε : Type) where
  metadataOk : String → Bool
  readLines : String → Except ε (List Word)

/-- Rust `find_dictionary`: first path whose metadata call succeeds. -/
def find_dictionary {ε : Type} (fs : FileSystem ε) :
    List String → Except (DictError ε) String
  | [] => Except.error (DictError.new "Unable to find a word database.")
  | path :: rest =>
    if fs.metadataOk path then Except.ok path else find_dictionary fs rest

/-- Rust `Dictionary::new`: probe the candidate paths, read the chosen file
(converting a read failure into a wrapped I/O error), keep the length-5
lines lowercased, and build the initial state. -/
def Dictionary.new {ε : Type} (fs : FileSystem ε) (dictionaries : List String) :
    Except (DictError ε) Dictionary :=
  match find_dictionary fs dictionaries with
  | Except.error e => Except.error e
  | Except.ok database =>
    match fs.readLines database with
    | Except.error e => Except.error (DictError.fromIo e)
    | Except.ok lines => Except.ok (Dictionary.init (read_words lines))

/-- The engine operations the presentation layer can invoke. -/
inductive Op where
  | reset
  | addChar (t : SetType) (ch : Char)
  | removeChar (t : SetType) (ch : Char)
  | clearSet (t : SetType)
  | setCharPosition (pos : Nat) (ch : Char)
  | unsetCharPosition (pos : Nat)
  | getMatches
deriving DecidableEq

/-- One engine step.  An out-of-range `set_char_position` panics in the
source before touching any field, so the state observed at the panic is the
unchanged one. -/
def step (d : Dictionary) : Op → Dictionary
  | Op.reset => d.reset
  | Op.addChar t ch => d.add_char t ch
  | Op.removeChar t ch => d.remove_char t ch
  | Op.clearSet t => d.clear_set t
  | Op.setCharPosition pos ch => (d.set_char_position pos ch).toOption.getD d
  | Op.unsetCharPosition pos => (d.unset_char_position pos).toOption.getD d
  | Op.getMatches => d.matchesCall.1

/-- Run a sequence of operations. -/
def run (d : Dictionary) (ops : List Op) : Dictionary :=
  ops.foldl step d

/-- The states reachable from a freshly constructed engine over `words`. -/
def Reachable (words : List Word) (d : Dictionary) : Prop :=
  ∃ ops : List Op, run (Dictionary.init words) ops = d

/-!
### Basic facts about the filtering pass and the cache
-/

/-- Rust `filter_matches` reads only the three constraint fields. -/
theorem filter_matches_congr (d d' : Dictionary) (he : d.exclude = d'.exclude)
    (hi : d.includeSet = d'.includeSet) (hp : d.positions = d'.positions)
    (ms : List Word) : d.filter_matches ms = d'.filter_matches ms := by
  simp [Dictionary.filter_matches, Dictionary.match_excluded,
    Dictionary.match_included, Dictionary.match_positions, he, hi, hp]

/-- A filtering pass returns an order-preserving subsequence of its pool. -/
theorem filter_matches_sublist (d : Dictionary) (ms : List Word) :
    (d.filter_matches ms).Sublist ms :=
  List.filter_sublist ms

/-- Filtering preserves the subsequence relation between pools. -/
theorem sublist_filter_matches (d : Dictionary) {ms ms' : List Word}
    (h : ms.Sublist ms') :
    (d.filter_matches ms).Sublist (d.filter_matches ms') :=
  h.filter _

/-- Running the same filtering pass twice changes nothing. -/
theorem filter_matches_idem (d : Dictionary) (ms : List Word) :
    d.filter_matches (d.filter_matches ms) = d.filter_matches ms := by
  simp only [Dictionary.filter_matches]
  apply List.filter_eq_self.mpr
  intro a ha
  exact (List.mem_filter.mp ha).2

/-- The sequence `matches()` returns: the current pool (cache when present,
otherwise the full word list) put through one filtering pass. -/
theorem matchesCall_snd (d : Dictionary) :
    d.matchesCall.2 = d.filter_matches (d.matchesCache.getD d.words) := by
  cases h : d.matchesCache <;> simp [Dictionary.matchesCall, h]

/-- The state `matches()` leaves behind: the returned sequence is cached,
everything else is untouched. -/
theorem matchesCall_fst (d : Dictionary) :
    d.matchesCall.1 = { d with matchesCache := some d.matchesCall.2 } := by
  cases h : d.matchesCache <;> simp [Dictionary.matchesCall, h]

/-- Out-of-range calls take the `panic!` branch. -/
theorem set_char_position_err {d : Dictionary} {pos : Nat} {ch : Char}
    (h : pos < 1 ∨ pos > 5) :
    d.set_char_position pos ch =
      Except.error "`pos` must be between 1 and 5." := by
  unfold Dictionary.set_char_position
  rw [if_pos h]

/-- In-range calls take the mutating branch. -/
theorem set_char_position_ok {d : Dictionary} {pos : Nat} {ch : Char}
    (h : ¬(pos < 1 ∨ pos > 5)) :
    d.set_char_position pos ch = Except.ok { d with
      matchesCache := if ch = '.' then none else d.matchesCache,
      includeSet := d.includeSet.erase ch,
      exclude := d.exclude.erase ch,
      positions := d.positions.set (pos - 1) ch } := by
  unfold Dictionary.set_char_position
  rw [if_neg h]

/-!
### The reachable-state invariant
-/

/-- Invariant maintained by every engine operation: the word list is the
one the engine was built over, the two letter sets are disjoint, and any
populated cache is an order-preserving subsequence of the word list. -/
def EngineInv (words : List Word) (d : Dictionary) : Prop :=
  d.words = words ∧
  (∀ x ∈ d.exclude, x ∉ d.includeSet) ∧
  (∀ m, d.matchesCache = some m → m.Sublist words)

theorem disj_insert_erase {s t : Finset Char} (h : ∀ x ∈ s, x ∉ t)
    (ch : Char) : ∀ x ∈ insert ch s, x ∉ t.erase ch := by
  intro x hx hx'
  rcases Finset.mem_insert.mp hx with rfl | hxs
  · exact (Finset.mem_erase.mp hx').1 rfl
  · exact h x hxs (Finset.mem_erase.mp hx').2

theorem disj_erase_insert {s t : Finset Char} (h : ∀ x ∈ s, x ∉ t)
    (ch : Char) : ∀ x ∈ s.erase ch, x ∉ insert ch t := by
  intro x hx hx'
  rcases Finset.mem_insert.mp hx' with rfl | hxt
  · exact (Finset.mem_erase.mp hx).1 rfl
  · exact h x (Finset.mem_erase.mp hx).2 hxt

theorem inv_init (words : List Word) : EngineInv words (Dictionary.init words) := by
  refine ⟨rfl, ?_, ?_⟩ <;> simp [Dictionary.init]

theorem inv_step {words : List Word} {d : Dictionary} (h : EngineInv words d)
    (op : Op) : EngineInv words (step d op) := by
  obtain ⟨hw, hdisj, hcache⟩ := h
  cases op with
  | reset =>
    refine ⟨hw, ?_, ?_⟩ <;> simp [step, Dictionary.reset]
  | addChar t ch =>
    cases t with
    | Excluded =>
      exact ⟨hw, disj_insert_erase hdisj ch, by
        simpa [step, Dictionary.add_char, Dictionary.exclude_char] using hcache⟩
    | Included =>
      exact ⟨hw, disj_erase_insert hdisj ch, by
        simpa [step, Dictionary.add_char, Dictionary.include_char] using hcache⟩
  | removeChar t ch =>
    cases t with
    | Excluded =>
      refine ⟨hw, ?_, ?_⟩
      · intro x hx
        exact hdisj x (Finset.mem_erase.mp hx).2
      · simp [step, Dictionary.remove_char, Dictionary.remove_excluded_char]
    | Included =>
      refine ⟨hw, ?_, ?_⟩
      · intro x hx hx'
        exact hdisj x hx (Finset.mem_erase.mp hx').2
      · simp [step, Dictionary.remove_char, Dictionary.remove_included_char]
  | clearSet t =>
    cases t with
    | Excluded =>
      refine ⟨hw, ?_, ?_⟩
      · simp [step, Dictionary.clear_set, Dictionary.clear_excluded_chars]
      · simpa [step, Dictionary.clear_set, Dictionary.clear_excluded_chars]
          using hcache
    | Included =>
      refine ⟨hw, ?_, ?_⟩
      · simp [step, Dictionary.clear_set, Dictionary.clear_included_chars]
      · simpa [step, Dictionary.clear_set, Dictionary.clear_included_chars]
          using hcache
  | setCharPosition pos ch =>
    by_cases hb : pos < 1 ∨ pos > 5
    · have hs : step d (Op.setCharPosition pos ch) = d := by
        simp [step, set_char_position_err hb, Except.toOption]
      rw [hs]
      exact ⟨hw, hdisj, hcache⟩
    · have hs : step d (Op.setCharPosition pos ch) = { d with
          matchesCache := if ch = '.' then none else d.matchesCache,
          includeSet := d.includeSet.erase ch,
          exclude := d.exclude.erase ch,
          positions := d.positions.set (pos - 1) ch } := by
        simp [step, set_char_position_ok hb, Except.toOption]
      rw [hs]
      refine ⟨hw, ?_, ?_⟩
      · intro x hx hx'
        exact hdisj x (Finset.mem_erase.mp hx).2 (Finset.mem_erase.mp hx').2
      · intro m hm
        have hm' : (if ch = '.' then none else d.matchesCache) = some m := hm
        by_cases hc : ch = '.'
        · simp [hc] at hm'
        · rw [if_neg hc] at hm'
          exact hcache m hm'
  | unsetCharPosition pos =>
    by_cases hb : pos < 1 ∨ pos > 5
    · have hs : step d (Op.unsetCharPosition pos) = d := by
        simp [step, Dictionary.unset_char_position, set_char_position_err hb,
          Except.toOption]
      rw [hs]
      exact ⟨hw, hdisj, hcache⟩
    · have hs : step d (Op.unsetCharPosition pos) = { d with
          matchesCache := none,
          includeSet := d.includeSet.erase '.',
          exclude := d.exclude.erase '.',
          positions := d.positions.set (pos - 1) '.' } := by
        simp [step, Dictionary.unset_char_position, set_char_position_ok hb,
          Except.toOption]
      rw [hs]
      refine ⟨hw, ?_, ?_⟩
      · intro x hx hx'
        exact hdisj x (Finset.mem_erase.mp hx).2 (Finset.mem_erase.mp hx').2
      · intro m hm
        exact absurd hm (by simp)
  | getMatches =>
    refine ⟨by simp [step, matchesCall_fst, hw], ?_, ?_⟩
    · intro x hx
      simp [step, matchesCall_fst] at hx ⊢
      exact hdisj x hx
    · intro m hm
      simp [step, matchesCall_fst] at hm
      subst hm
      rw [matchesCall_snd]
      cases hmc : d.matchesCache with
      | none =>
        simpa [hmc, hw] using filter_matches_sublist d words
      | some ms =>
        exact ((filter_matches_sublist d ms).trans (hcache ms hmc)).trans
          (by simp [hmc])

theorem inv_run {words : List Word} {d : Dictionary} (h : EngineInv words d)
    (ops : List Op) : EngineInv words (run d ops) := by
  induction ops generalizing d with
  | nil => exact h
  | cons op rest ih => simpa [run] using ih (inv_step h op)

theorem reachable_inv {words : List Word} {d : Dictionary}
    (h : Reachable words d) : EngineInv words d := by
  obtain ⟨ops, rfl⟩ := h
  exact inv_run (inv_init words) ops

/-!
### Claim theorems
-/

/-- Replacing the cache does not change how a pool is filtered. -/
theorem filter_matches_setCache (d : Dictionary) (c : Option (List Word))
    (ms : List Word) :
    ({ d with matchesCache := c } : Dictionary).filter_matches ms =
      d.filter_matches ms :=
  filter_matches_congr { d with matchesCache := c } d rfl rfl rfl ms

/-- After a `matches()` call the cache holds exactly the returned sequence. -/
theorem matchesCall_fst_cache (d : Dictionary) :
    (d.matchesCall.1).matchesCache = some d.matchesCall.2 := by
  cases h : d.matchesCache <;> simp [Dictionary.matchesCall, h]

/-- A `matches()` call leaves the filtering behaviour unchanged. -/
theorem matchesCall_fst_filter (d : Dictionary) (ms : List Word) :
    (d.matchesCall.1).filter_matches ms = d.filter_matches ms := by
  rw [matchesCall_fst]
  exact filter_matches_setCache d _ ms

/-- C5.  `matches()` is idempotent: for every engine state, two consecutive
`matches()` calls with no intervening mutation return identical ordered
sequences. -/
theorem matches_idempotent (d : Dictionary) :
    (d.matchesCall.1).matchesCall.2 = d.matchesCall.2 := by
  rw [matchesCall_snd (d.matchesCall.1), matchesCall_fst_cache]
  simp only [Option.getD_some]
  rw [matchesCall_fst_filter, matchesCall_snd d]
  exact filter_matches_idem d _

/-- C7.  Mutual exclusivity of the letter sets: adding a letter to one set
puts it there and removes it from the other, and in every reachable state
no letter is in both the Exclude Set and the Include Set. -/
theorem mutual_exclusivity (words : List Word) (d : Dictionary) (c : Char)
    (hd : Reachable words d) :
    c ∉ ((d.add_char SetType.Included c).add_char SetType.Excluded c).includeSet ∧
    c ∈ ((d.add_char SetType.Included c).add_char SetType.Excluded c).exclude ∧
    c ∉ ((d.add_char SetType.Excluded c).add_char SetType.Included c).exclude ∧
    c ∈ ((d.add_char SetType.Excluded c).add_char SetType.Included c).includeSet ∧
    ∀ x, ¬(x ∈ d.exclude ∧ x ∈ d.includeSet) := by
  refine ⟨?_, ?_, ?_, ?_, ?_⟩
  · simp [Dictionary.add_char, Dictionary.exclude_char, Dictionary.include_char]
  · simp [Dictionary.add_char, Dictionary.exclude_char, Dictionary.include_char]
  · simp [Dictionary.add_char, Dictionary.exclude_char, Dictionary.include_char]
  · simp [Dictionary.add_char, Dictionary.exclude_char, Dictionary.include_char]
  · intro x hx
    exact (reachable_inv hd).2.1 x hx.1 hx.2

theorem mutual_exclusivity_witness :
    Reachable [['c','r','a','n','e']] (Dictionary.init [['c','r','a','n','e']]) ∧
    ('a' ∉ (((Dictionary.init [['c','r','a','n','e']]).add_char
        SetType.Included 'a').add_char SetType.Excluded 'a').includeSet ∧
     'a' ∈ (((Dictionary.init [['c','r','a','n','e']]).add_char
        SetType.Included 'a').add_char SetType.Excluded 'a').exclude ∧
     'a' ∉ (((Dictionary.init [['c','r','a','n','e']]).add_char
        SetType.Excluded 'a').add_char SetType.Included 'a').exclude ∧
     'a' ∈ (((Dictionary.init [['c','r','a','n','e']]).add_char
        SetType.Excluded 'a').add_char SetType.Included 'a').includeSet ∧
     ∀ x, ¬(x ∈ (Dictionary.init [['c','r','a','n','e']]).exclude ∧
        x ∈ (Dictionary.init [['c','r','a','n','e']]).includeSet)) :=
  ⟨⟨[], rfl⟩, mutual_exclusivity _ _ 'a' ⟨[], rfl⟩⟩

/-- C10.  In every reachable state, the sequence returned by `matches()`,
and any populated cache, is an order-preserving subsequence of the word
store's list. -/
theorem matches_subsequence_of_store (words : List Word) (d : Dictionary)
    (hd : Reachable words d) :
    d.matchesCall.2.Sublist words ∧
    ∀ m, d.matchesCache = some m → m.Sublist words := by
  obtain ⟨hw, -, hcache⟩ := reachable_inv hd
  refine ⟨?_, hcache⟩
  rw [matchesCall_snd]
  cases hmc : d.matchesCache with
  | none =>
    rw [Option.getD_none, ← hw]
    exact filter_matches_sublist d d.words
  | some ms =>
    rw [Option.getD_some]
    exact (filter_matches_sublist d ms).trans (hcache ms hmc)

theorem matches_subsequence_of_store_witness :
    Reachable [['c','r','a','n','e']]
      (run (Dictionary.init [['c','r','a','n','e']]) [Op.getMatches]) ∧
    ((run (Dictionary.init [['c','r','a','n','e']])
        [Op.getMatches]).matchesCall.2.Sublist [['c','r','a','n','e']] ∧
     ∀ m, (run (Dictionary.init [['c','r','a','n','e']])
        [Op.getMatches]).matchesCache = some m →
          m.Sublist [['c','r','a','n','e']]) :=
  ⟨⟨[Op.getMatches], rfl⟩,
    matches_subsequence_of_store _ _ ⟨[Op.getMatches], rfl⟩⟩

/-- C8.  An out-of-range position makes `set_char_position` fail with the
`InvalidPosition` panic and leaves the engine state unchanged. -/
theorem set_position_out_of_range (d : Dictionary) (pos : Nat) (ch : Char)
    (h : pos < 1 ∨ pos > 5) :
    d.set_char_position pos ch =
      Except.error "`pos` must be between 1 and 5." ∧
    step d (Op.setCharPosition pos ch) = d := by
  refine ⟨set_char_position_err h, ?_⟩
  simp [step, set_char_position_err h, Except.toOption]

theorem set_position_out_of_range_witness :
    ((0 < 1 ∨ 0 > 5) ∧
      (Dictionary.init []).set_char_position 0 'a' =
        Except.error "`pos` must be between 1 and 5." ∧
      step (Dictionary.init []) (Op.setCharPosition 0 'a') =
        Dictionary.init []) ∧
    ((6 < 1 ∨ 6 > 5) ∧
      (Dictionary.init []).set_char_position 6 'a' =
        Except.error "`pos` must be between 1 and 5." ∧
      step (Dictionary.init []) (Op.setCharPosition 6 'a') =
        Dictionary.init []) :=
  ⟨⟨by decide, set_position_out_of_range _ 0 'a' (by decide)⟩,
   ⟨by decide, set_position_out_of_range _ 6 'a' (by decide)⟩⟩

/-- C3.  Cache lifecycle: every `remove_char` and every in-range clearing of
a position to the wildcard invalidates the cache; `add_char`, `clear_set`,
and an in-range `set_char_position` with a non-wildcard letter leave the
cache unchanged; and `unset_char_position` is `set_char_position` at the
wildcard. -/
theorem cache_lifecycle (d : Dictionary) (t : SetType) (c : Char) (pos : Nat)
    (d1 d2 : Dictionary) (hc : c ≠ '.')
    (h1 : d.set_char_position pos '.' = Except.ok d1)
    (h2 : d.set_char_position pos c = Except.ok d2) :
    (d.remove_char t c).matchesCache = none ∧
    d1.matchesCache = none ∧
    d.unset_char_position pos = d.set_char_position pos '.' ∧
    (d.add_char t c).matchesCache = d.matchesCache ∧
    (d.clear_set t).matchesCache = d.matchesCache ∧
    d2.matchesCache = d.matchesCache := by
  by_cases hb : pos < 1 ∨ pos > 5
  · rw [set_char_position_err hb] at h1
    exact absurd h1 (by simp)
  · rw [set_char_position_ok hb] at h1 h2
    injection h1 with h1
    injection h2 with h2
    refine ⟨?_, ?_, rfl, ?_, ?_, ?_⟩
    · cases t <;>
        simp [Dictionary.remove_char, Dictionary.remove_excluded_char,
          Dictionary.remove_included_char]
    · rw [← h1]
      simp
    · cases t <;>
        simp [Dictionary.add_char, Dictionary.exclude_char,
          Dictionary.include_char]
    · cases t <;>
        simp [Dictionary.clear_set, Dictionary.clear_excluded_chars,
          Dictionary.clear_included_chars]
    · rw [← h2]
      simp [hc]

theorem cache_lifecycle_witness :
    (('a' : Char) ≠ '.' ∧
     (Dictionary.init []).set_char_position 1 '.' =
       Except.ok (Dictionary.init []) ∧
     (Dictionary.init []).set_char_position 1 'a' =
       Except.ok { Dictionary.init [] with
         positions := ['a', '.', '.', '.', '.'] }) ∧
    (((Dictionary.init []).remove_char SetType.Excluded 'a').matchesCache =
        none ∧
     (Dictionary.init []).matchesCache = none ∧
     (Dictionary.init []).unset_char_position 1 =
       (Dictionary.init []).set_char_position 1 '.' ∧
     ((Dictionary.init []).add_char SetType.Excluded 'a').matchesCache =
       (Dictionary.init []).matchesCache ∧
     ((Dictionary.init []).clear_set SetType.Excluded).matchesCache =
       (Dictionary.init []).matchesCache ∧
     ({ Dictionary.init [] with
         positions := ['a', '.', '.', '.', '.'] } : Dictionary).matchesCache =
       (Dictionary.init []).matchesCache) :=
  ⟨⟨by decide, by decide, by decide⟩,
    cache_lifecycle (Dictionary.init []) SetType.Excluded 'a' 1 _ _
      (by decide) (by decide) (by decide)⟩

/-- A state whose cache holds `r` answers `matches()` with a subset of `r`. -/
theorem matchesCall_subset_cache {s : Dictionary} {r : List Word}
    (h : s.matchesCache = some r) : s.matchesCall.2 ⊆ r := by
  rw [matchesCall_snd, h, Option.getD_some]
  exact (filter_matches_sublist s r).subset

/-- Words over which the C2 counterexample runs. -/
def c2Words : List Word :=
  [['c','r','a','n','e'], ['t','r','a','c','e'], ['g','r','a','p','e'],
   ['p','l','a','n','e'], ['p','l','a','c','e']]

/-- Trace reaching the C2 counterexample state: compute matches once, then
add an inclusion constraint (which does not invalidate the cache). -/
def c2Trace : List Op := [Op.getMatches, Op.addChar SetType.Included 'z']

/-- The C2 counterexample state: Include Set `{z}`, cache holding all five
words. -/
def c2State : Dictionary := run (Dictionary.init c2Words) c2Trace

/-- C2 counterexample.  In the reachable state `c2State`, `matches()` would
return `[]` (no word contains `z`); after `add_char Excluded 'z'` — which
also removes `z` from the Include Set — `matches()` returns all five words,
which is not a subset of `[]`.  So after an `add_letter` call the returned
sequence need not be a subset of what `matches()` would have returned just
before the call. -/
theorem monotonicity_cex :
    Reachable c2Words c2State ∧
    ¬((step c2State (Op.addChar SetType.Excluded 'z')).matchesCall.2 ⊆
        c2State.matchesCall.2) :=
  ⟨⟨c2Trace, rfl⟩, by decide⟩

/-- C2 amended.  If `matches()` is actually called (so its result is the
cache) and then a single `add_char` or a `set_char_position` with a
non-wildcard letter runs, the next `matches()` returns a subset of the
previously returned sequence. -/
theorem matches_monotone_after_cached_call (d : Dictionary) (op : Op)
    (h : (∃ t c, op = Op.addChar t c) ∨
         (∃ pos c, c ≠ '.' ∧ op = Op.setCharPosition pos c)) :
    (step (d.matchesCall.1) op).matchesCall.2 ⊆ d.matchesCall.2 := by
  rcases h with ⟨t, c, rfl⟩ | ⟨pos, c, hc, rfl⟩
  · apply matchesCall_subset_cache
    cases t <;> exact matchesCall_fst_cache d
  · apply matchesCall_subset_cache
    by_cases hb : pos < 1 ∨ pos > 5
    · have hs : step (d.matchesCall.1) (Op.setCharPosition pos c) =
          d.matchesCall.1 := by
        simp [step, set_char_position_err hb, Except.toOption]
      rw [hs]
      exact matchesCall_fst_cache d
    · have hs : (step (d.matchesCall.1) (Op.setCharPosition pos c)).matchesCache
          = (d.matchesCall.1).matchesCache := by
        simp [step, set_char_position_ok hb, Except.toOption, hc]
      rw [hs]
      exact matchesCall_fst_cache d

theorem matches_monotone_after_cached_call_witness :
    ((∃ t c, (Op.addChar SetType.Excluded 't' : Op) = Op.addChar t c) ∨
     (∃ pos c, c ≠ '.' ∧
        (Op.addChar SetType.Excluded 't' : Op) = Op.setCharPosition pos c)) ∧
    (step ((Dictionary.init c2Words).matchesCall.1)
        (Op.addChar SetType.Excluded 't')).matchesCall.2 ⊆
      (Dictionary.init c2Words).matchesCall.2 :=
  ⟨Or.inl ⟨SetType.Excluded, 't', rfl⟩,
    matches_monotone_after_cached_call (Dictionary.init c2Words)
      (Op.addChar SetType.Excluded 't')
      (Or.inl ⟨SetType.Excluded, 't', rfl⟩)⟩

/-- Words over which the C1 counterexample runs. -/
def c1Words : List Word := [['c','r','a','n','e']]

/-- Trace reaching the C1 counterexample state: exclude `c`, compute matches
(caching `[]`), then clear the Exclude Set — which does not invalidate the
cache. -/
def c1Trace : List Op :=
  [Op.addChar SetType.Excluded 'c', Op.getMatches, Op.clearSet SetType.Excluded]

/-- The C1 counterexample state: empty constraint snapshot but a stale
cached `[]`. -/
def c1State : Dictionary := run (Dictionary.init c1Words) c1Trace

/-- C1 counterexample.  In the reachable state `c1State` the constraint
snapshot is empty, so filtering the full Word Store from scratch returns
the whole store, yet `matches()` re-filters the stale cached `[]` and
returns `[]`: re-filtering the cached result is not equivalent to
re-scanning the full store. -/
theorem cache_refilter_not_equivalent_cex :
    Reachable c1Words c1State ∧
    c1State.matchesCall.2 ≠ c1State.filter_matches c1State.words :=
  ⟨⟨c1Trace, rfl⟩, by decide⟩

/-- C1 amended.  In every reachable state, `matches()` returns an
order-preserving subsequence of the scratch scan (filtering the full Word
Store under the current constraint snapshot); equality can fail, because
`clear_set` and `add_char` never invalidate the cache although they can
grow the set of words the snapshot admits. -/
theorem matches_subsequence_of_scratch (words : List Word) (d : Dictionary)
    (hd : Reachable words d) :
    (d.matchesCall.2).Sublist (d.filter_matches d.words) := by
  obtain ⟨hw, -, hcache⟩ := reachable_inv hd
  rw [matchesCall_snd]
  cases hmc : d.matchesCache with
  | none =>
    rw [Option.getD_none]
  | some ms =>
    rw [Option.getD_some, hw]
    exact sublist_filter_matches d (hcache ms hmc)

theorem matches_subsequence_of_scratch_witness :
    Reachable c1Words c1State ∧
    (c1State.matchesCall.2).Sublist (c1State.filter_matches c1State.words) :=
  ⟨⟨c1Trace, rfl⟩, matches_subsequence_of_scratch c1Words c1State ⟨c1Trace, rfl⟩⟩

/-- C4 counterexample.  Reach a state whose Exclude Set is `{'.'}` (the
engine accepts any character in `add_char`), then call
`set_char_position 1 '.'`: the call succeeds and the resulting state's
Exclude Set is empty — the wildcard case does NOT leave the Exclude Set
unchanged, because the source erases `ch` from both sets on every in-range
call, wildcard included. -/
theorem set_position_wildcard_mutates_sets_cex :
    Reachable [] ((Dictionary.init []).exclude_char '.') ∧
    (((Dictionary.init []).exclude_char '.').set_char_position 1 '.').toOption
      = some (Dictionary.init []) ∧
    (Dictionary.init []).exclude ≠
      ((Dictionary.init []).exclude_char '.').exclude :=
  ⟨⟨[Op.addChar SetType.Excluded '.'], rfl⟩, by decide, by decide⟩

/-- C4 amended.  For every in-range position and every character `ch`,
`set_char_position` succeeds, writes `ch` at index `pos - 1`, erases `ch`
from both letter sets (in the wildcard case too — which changes them
exactly when the sentinel was an element), and invalidates the cache
exactly in the wildcard case; afterwards neither accessor lists `ch`. -/
theorem set_position_in_range (d : Dictionary) (pos : Nat) (ch : Char)
    (h : 1 ≤ pos ∧ pos ≤ 5) :
    ∃ d', d.set_char_position pos ch = Except.ok d' ∧
      d'.positions = d.positions.set (pos - 1) ch ∧
      d'.exclude = d.exclude.erase ch ∧
      d'.includeSet = d.includeSet.erase ch ∧
      d'.matchesCache = (if ch = '.' then none else d.matchesCache) ∧
      ch ∉ d'.excluded_chars ∧ ch ∉ d'.included_chars := by
  have hb : ¬(pos < 1 ∨ pos > 5) := by omega
  refine ⟨_, set_char_position_ok hb, rfl, rfl, rfl, rfl, ?_, ?_⟩
  · simp [Dictionary.excluded_chars, Finset.mem_sort]
  · simp [Dictionary.included_chars, Finset.mem_sort]

theorem set_position_in_range_witness :
    (1 ≤ 1 ∧ 1 ≤ 5) ∧
    (∃ d', (Dictionary.init []).set_char_position 1 'a' = Except.ok d' ∧
      d'.positions = (Dictionary.init []).positions.set 0 'a' ∧
      d'.exclude = (Dictionary.init []).exclude.erase 'a' ∧
      d'.includeSet = (Dictionary.init []).includeSet.erase 'a' ∧
      d'.matchesCache =
        (if ('a' : Char) = '.' then none
         else (Dictionary.init []).matchesCache) ∧
      'a' ∉ d'.excluded_chars ∧ 'a' ∉ d'.included_chars) :=
  ⟨by decide, set_position_in_range (Dictionary.init []) 1 'a' (by decide)⟩

/-- C6 counterexample.  A length-5 line of letters and digits is retained
verbatim by `read_words`; the stored word contains `'1'`, which is not a
lowercase letter — so stored words need not consist only of lowercase
letters. -/
theorem read_words_nonletter_cex :
    read_words [['a','b','1','2','3']] = [['a','b','1','2','3']] ∧
    '1' ∈ (['a','b','1','2','3'] : Word) ∧ '1'.isLower = false :=
  ⟨by decide, by decide, by decide⟩

theorem ofNat_add32_isUpper_false (n : Nat) (h1 : 65 ≤ n) (h2 : n ≤ 90) :
    (Char.ofNat (n + 32)).isUpper = false := by
  interval_cases n <;> decide

/-- Lowercasing never yields an uppercase basic-latin letter. -/
theorem toLower_isUpper_false (c : Char) : (Char.toLower c).isUpper = false := by
  unfold Char.toLower
  by_cases h : c.toNat ≥ 65 ∧ c.toNat ≤ 90
  · rw [if_pos h]
    exact ofNat_add32_isUpper_false c.toNat h.1 h.2
  · rw [if_neg h]
    simp only [Char.isUpper]
    rw [Bool.and_eq_false_iff]
    by_cases h65 : (65 : UInt32) ≤ c.val
    · right
      rw [decide_eq_false_iff_not]
      intro h90
      exact h ⟨UInt32.le_toNat_of_le (by decide) h65,
        UInt32.toNat_le_of_le (by decide) h90⟩
    · left
      rw [decide_eq_false_iff_not]
      exact h65

/-- C6 amended.  Every word stored by `read_words` has length 5, contains
no uppercase letter, and is the lowercasing of a length-5 source line;
the stored words are an order-preserving subsequence of the lowercased
source (lines of any other length are silently dropped). -/
theorem read_words_spec (lines : List Word) (w : Word)
    (hw : w ∈ read_words lines) :
    w.length = 5 ∧
    (∀ ch ∈ w, ch.isUpper = false) ∧
    (∃ l ∈ lines, l.length = 5 ∧ w = l.map Char.toLower) ∧
    (read_words lines).Sublist (lines.map (List.map Char.toLower)) := by
  unfold read_words at hw ⊢
  obtain ⟨l, hl, rfl⟩ := List.mem_map.mp hw
  obtain ⟨hmem, hlen⟩ := List.mem_filter.mp hl
  have hlen5 : l.length = 5 := by simpa using hlen
  refine ⟨by simp [hlen5], ?_, ⟨l, hmem, hlen5, rfl⟩, ?_⟩
  · intro ch hch
    obtain ⟨c0, -, rfl⟩ := List.mem_map.mp hch
    exact toLower_isUpper_false c0
  · exact List.Sublist.map _ (List.filter_sublist lines)

theorem read_words_spec_witness :
    (['c','r','a','n','e'] : Word) ∈ read_words [['C','R','A','N','E']] ∧
    ((['c','r','a','n','e'] : Word).length = 5 ∧
     (∀ ch ∈ (['c','r','a','n','e'] : Word), ch.isUpper = false) ∧
     (∃ l ∈ [[('C' : Char),'R','A','N','E']], l.length = 5 ∧
        (['c','r','a','n','e'] : Word) = l.map Char.toLower) ∧
     (read_words [['C','R','A','N','E']]).Sublist
       ([['C','R','A','N','E']].map (List.map Char.toLower))) :=
  ⟨by decide, read_words_spec [['C','R','A','N','E']] ['c','r','a','n','e']
    (by decide)⟩

/-- Rust `find_dictionary` returns the first path whose metadata call succeeds,
and the NotFound error when there is none. -/
theorem find_dictionary_eq {ε : Type} (fs : FileSystem ε) (l : List String) :
    find_dictionary fs l =
      match l.find? fs.metadataOk with
      | none => Except.error (DictError.new "Unable to find a word database.")
      | some path => Except.ok path := by
  induction l with
  | nil => rfl
  | cons p rest ih =>
    by_cases h : fs.metadataOk p = true
    · simp [find_dictionary, h, List.find?_cons]
    · simp only [Bool.not_eq_true] at h
      simp [find_dictionary, h, List.find?_cons]
      exact ih

/-- C9.  Word Store construction probes the candidate locations in order and
loads from the first whose metadata call succeeds; it fails with `NotFound`
iff no candidate exists, and with the wrapped I/O error when the chosen
location cannot be read. -/
theorem new_probes_in_order {ε : Type} (fs : FileSystem ε)
    (dictionaries : List String) :
    (Dictionary.new fs dictionaries =
      match dictionaries.find? fs.metadataOk with
      | none => Except.error (DictError.new "Unable to find a word database.")
      | some path =>
        match fs.readLines path with
        | Except.error e => Except.error (DictError.fromIo e)
        | Except.ok lines => Except.ok (Dictionary.init (read_words lines))) ∧
    (Dictionary.new fs dictionaries =
        Except.error (DictError.new "Unable to find a word database.") ↔
      ∀ path ∈ dictionaries, fs.metadataOk path = false) := by
  have h1 : Dictionary.new fs dictionaries =
      match dictionaries.find? fs.metadataOk with
      | none => Except.error (DictError.new "Unable to find a word database.")
      | some path =>
        match fs.readLines path with
        | Except.error e => Except.error (DictError.fromIo e)
        | Except.ok lines => Except.ok (Dictionary.init (read_words lines)) := by
    unfold Dictionary.new
    rw [find_dictionary_eq]
    cases dictionaries.find? fs.metadataOk with
    | none => rfl
    | some path => rfl
  refine ⟨h1, ?_⟩
  rw [h1]
  cases hf : dictionaries.find? fs.metadataOk with
  | none =>
    rw [List.find?_eq_none] at hf
    simp only [Bool.not_eq_true] at hf
    simpa using hf
  | some path =>
    have hmem : path ∈ dictionaries := List.mem_of_find?_eq_some hf
    have htrue : fs.metadataOk path = true := List.find?_some hf
    have hrhs : ¬ ∀ q ∈ dictionaries, fs.metadataOk q = false := by
      intro hall
      rw [hall path hmem] at htrue
      exact Bool.false_ne_true htrue
    have hlhs : (match fs.readLines path with
        | Except.error e => Except.error (DictError.fromIo e)
        | Except.ok lines => Except.ok (Dictionary.init (read_words lines)))
        ≠ Except.error (DictError.new "Unable to find a word database.") := by
      cases hr : fs.readLines path with
      | error e =>
        simp [DictError.fromIo, DictError.new]
      | ok lines => simp
    exact iff_of_false hlhs hrhs
